import Mathlib

/-!
Verification development for the relay engine in `telegram-bot/agent_bot.py`.

Python strings are modelled as `List Char` (Python indexes and slices by code
point, so the list-of-characters view is exact for every operation the bot
performs).  Each definition below is a direct translation of the function of
the same (or clearly indicated) name in `agent_bot.py`; filesystem and network
effects are modelled by explicit oracles (`isfile`, `dl`, `deliverOk`, `jparse`)
passed as parameters, and effectful code is modelled by the ordered list of
actions it performs.
-/

set_option maxHeartbeats 1000000

/-! ### Python string primitives -/

/-- The whitespace characters recognised by Python `str.strip()` (ASCII part;
the bot only handles ASCII control whitespace in practice). -/
def pySpace (c : Char) : Bool :=
  c == ' ' || c == '\t' || c == '\n' || c == '\r' || c == '\x0b' || c == '\x0c'

/-- Python `str.strip()`. -/
def pyStrip (s : List Char) : List Char :=
  ((s.dropWhile pySpace).reverse.dropWhile pySpace).reverse

/-- Python `str.lower()` (ASCII; the event-type strings compared by the bot are
ASCII). -/
def pyLower (s : List Char) : List Char :=
  s.map Char.toLower

/-- Python `str.split(sep)` for a one-character separator: never returns an
empty list, `"".split(c) == [""]`. -/
def splitOnChar (sep : Char) : List Char → List (List Char)
  | [] => [[]]
  | c :: rest =>
    if c = sep then [] :: splitOnChar sep rest
    else
      match splitOnChar sep rest with
      | [] => [[c]]
      | r :: rs => (c :: r) :: rs

/-- Python `text.split("\n")`. -/
def splitNl (s : List Char) : List (List Char) :=
  splitOnChar '\n' s

/-- Python `"\n".join(lines)`. -/
def joinNl : List (List Char) → List Char
  | [] => []
  | [l] => l
  | l :: ls => l ++ '\n' :: joinNl ls

/-- Python `str.startswith(pre)`. -/
def startsWithCL : List Char → List Char → Bool
  | [], _ => true
  | _ :: _, [] => false
  | a :: as, b :: bs => a == b && startsWithCL as bs

/-- Python `str.endswith(suf)`. -/
def endsWithCL (suf s : List Char) : Bool :=
  startsWithCL suf.reverse s.reverse

/-- Python `str.splitlines()` restricted to `"\n"` separators (the only line
terminator produced by the subprocess pipe the bot reads). -/
def pySplitlines (s : List Char) : List (List Char) :=
  if s = [] then []
  else
    let ps := splitNl s
    if ps.getLastD [] = [] then ps.dropLast else ps

/-- Python `str(n)` for an `int`. -/
def intChars (n : Int) : List Char :=
  (toString n).toList

/-- Python `str(n)` for a non-negative `int`. -/
def natChars (n : Nat) : List Char :=
  (Nat.repr n).toList

/-! ### posixpath helpers used by `extract_attach_image_paths` and the
attachment drains -/

/-- One step of the component loop inside `posixpath.normpath`; the
accumulator holds the emitted components in reverse order. -/
def normStep (hasRoot : Bool) (acc : List (List Char)) (comp : List Char) :
    List (List Char) :=
  if comp = [] ∨ comp = ".".toList then acc
  else if comp ≠ "..".toList ∨ (¬hasRoot ∧ acc = []) ∨ acc.head? = some "..".toList then
    comp :: acc
  else
    match acc with
    | [] => []
    | _ :: rest => rest

/-- Python `posixpath.normpath`. -/
def normpathCL (p : List Char) : List Char :=
  if p = [] then ".".toList
  else
    let s1 := startsWithCL "/".toList p
    let slashes : Nat :=
      if s1 then
        if startsWithCL "//".toList p ∧ ¬startsWithCL "///".toList p then 2 else 1
      else 0
    let comps := splitOnChar '/' p
    let newComps := (comps.foldl (normStep s1) []).reverse
    let res := List.replicate slashes '/' ++ List.intercalate "/".toList newComps
    if res = [] then ".".toList else res

/-- Python `posixpath.join(a, b)` for two arguments. -/
def posixJoin2 (a b : List Char) : List Char :=
  if startsWithCL "/".toList b then b
  else if a = [] ∨ a.getLast? = some '/' then a ++ b
  else a ++ '/' :: b

/-! ### `collapse_blank_lines` (agent_bot.py lines 119-134) -/

/-- A line is blank when it is empty or whitespace-only
(`not line.strip()` in the source). -/
def isBlankL (l : List Char) : Bool :=
  (pyStrip l).isEmpty

/-- The loop body of `collapse_blank_lines`: the `Bool` argument is the
`in_blank_run` flag. -/
def collapseGo : Bool → List (List Char) → List (List Char)
  | _, [] => []
  | inBlank, l :: ls =>
    if isBlankL l then
      if inBlank then collapseGo true ls
      else [] :: collapseGo true ls
    else l :: collapseGo false ls

/-- `collapse_blank_lines(text)`. -/
def collapse_blank_lines (t : List Char) : List Char :=
  if t = [] then t
  else joinNl (collapseGo false (splitNl t))

/-! ### `send_message` chunking (agent_bot.py lines 137-147)

`for i in range(0, len(text), 4096): part = text[i:i+4096]` — each loop
iteration issues one send call with `part` (the formatting-rejection fallback
at lines 143-147 resends the same `part`, it does not create a new segment).
The fuel argument makes the recursion structural; `send_message` supplies
`text.length` which always suffices. -/

def chunkSize : Nat := 4096

def chunksAux : Nat → List Char → List (List Char)
  | 0, _ => []
  | _, [] => []
  | fuel + 1, l => l.take chunkSize :: chunksAux fuel (l.drop chunkSize)

/-- The ordered list of message payloads produced by one `send_message` call. -/
def send_message_chunks (text : List Char) : List (List Char) :=
  chunksAux text.length text

/-! ### JSON values

`json.loads` output is modelled by `JVal`; numbers are restricted to integers
(the bot never reads a fractional field).  An object is an association list
with the distinct keys `json.loads` produces. -/

inductive JVal where
  | jnull
  | jbool (b : Bool)
  | jnum (n : Int)
  | jstr (s : List Char)
  | jarr (elems : List JVal)
  | jobj (fields : List (List Char × JVal))

/-- `obj.get(k)` on a parsed JSON object. -/
def jlookup (fields : List (List Char × JVal)) (k : List Char) : Option JVal :=
  match fields with
  | [] => none
  | (k2, v) :: rest => if k2 = k then some v else jlookup rest k

/-- Python truthiness of a JSON value. -/
def jtruthy : JVal → Bool
  | .jnull => false
  | .jbool b => b
  | .jnum n => n != 0
  | .jstr s => !s.isEmpty
  | .jarr es => !es.isEmpty
  | .jobj fs => !fs.isEmpty

/-- Python `x or y` where `x` may be the `None` produced by `dict.get`. -/
def pyOr (a b : Option JVal) : Option JVal :=
  match a with
  | some v => if jtruthy v then some v else b
  | none => b

/-- Truthiness of an optional value (`if sid:` patterns). -/
def optTruthy : Option JVal → Bool
  | some v => jtruthy v
  | none => false

/-- Python `str(v)`.  Scalar cases are exact; the rendering of containers
(`str` of a `list`/`dict`) is Python library behaviour the bot never relies
on, abstracted by a placeholder. -/
def pyStr : JVal → List Char
  | .jstr s => s
  | .jnum n => intChars n
  | .jbool true => "True".toList
  | .jbool false => "False".toList
  | .jnull => "None".toList
  | .jarr _ => "<list>".toList
  | .jobj _ => "<dict>".toList

/-! ### Streaming reader, per-line classification
(`run_agent_streaming`, agent_bot.py lines 438-480) -/

/-- Result of handling one parsed event line inside the reader loop.
`crash` marks a Python exception escaping the per-line code (an
`AttributeError`/`TypeError`, which aborts the reader via its outer
handler); it never surfaces event text. -/
inductive StepRes where
  | crash
  | skip
  | flush (s : List Char)
deriving DecidableEq

/-- `(obj.get("role") or obj.get("type") or obj.get("messageType") or "").lower()`
— `none` marks the `AttributeError` raised when the selected value is not a
string (or when the event is not an object at all). -/
def msgTypeOf : JVal → Option (List Char)
  | .jobj fs =>
    let tv := pyOr (jlookup fs "role".toList)
      (pyOr (jlookup fs "type".toList)
        (pyOr (jlookup fs "messageType".toList) (some (.jstr []))))
    match tv with
    | some (.jstr s) => some (pyLower s)
    | _ => none
  | _ => none

/-- Concatenation of a part list when every part is a string
(`"".join(parts)`; a non-string part raises `TypeError`). -/
def asStrings : List JVal → Option (List Char)
  | [] => some []
  | .jstr s :: rest => (asStrings rest).map (s ++ ·)
  | _ :: _ => none

/-- The parts collected from `message.content`: items that are objects with
`type == "text"` and a `"text"` key contribute their `"text"` value. -/
def textParts (items : List JVal) : List JVal :=
  items.filterMap fun it =>
    match it with
    | .jobj ifs =>
      match jlookup ifs "type".toList, jlookup ifs "text".toList with
      | some (.jstr t), some tv => if t = "text".toList then some tv else none
      | _, _ => none
    | _ => none

/-- The fallback search for assistant-authored text (lines 450-468):
first the nested `message.content` list of typed parts, else the flat
`content`/`text`/`delta`/`result`/`output` chain.  `none` = `TypeError`
crash, `some none` = no string text found, `some (some t)` = text `t`. -/
def fallbackTextOf (fs : List (List Char × JVal)) : Option (Option (List Char)) :=
  let nested : Option (Option (List Char)) :=
    match jlookup fs "message".toList with
    | some (.jobj mfs) =>
      match jlookup mfs "content".toList with
      | some (.jarr items) =>
        let parts := textParts items
        if parts.isEmpty then none else some (asStrings parts)
      | _ => none
    | _ => none
  match nested with
  | some (some t) => some (some t)
  | some none => none
  | none =>
    let ch := pyOr (jlookup fs "content".toList)
      (pyOr (jlookup fs "text".toList)
        (pyOr (jlookup fs "delta".toList)
          (pyOr (jlookup fs "result".toList) (jlookup fs "output".toList))))
    match ch with
    | some (.jstr t) => some (some t)
    | _ => some none

/-- Handling of one successfully json-decoded stdout line by the reader loop:
`thinking` and `result` events are dropped, every event whose type is not
`assistant` is dropped, and an `assistant` event is searched for text, which
is stripped and flushed when non-empty. -/
def processLine (v : JVal) : StepRes :=
  match v with
  | .jobj fs =>
    match msgTypeOf v with
    | none => .crash
    | some ty =>
      if ty = "thinking".toList then .skip
      else if ty = "result".toList then .skip
      else if ty ≠ "assistant".toList then .skip
      else
        match fallbackTextOf fs with
        | none => .crash
        | some none => .skip
        | some (some t) =>
          let ts := pyStrip t
          if ts = [] then .skip else .flush ts
  | _ => .crash

/-! ### `_parse_session_and_final_output` (agent_bot.py lines 345-378)

`jparse` is the `json.loads` oracle (it returns `none` on a
`json.JSONDecodeError`).  The overall result is `none` when a Python
exception escapes the function (an `AttributeError` from calling `.get` on a
non-dict decoded value, which the source does not catch). -/

/-- The flat-key search of lines 363-366: the first of the given keys present
with a string value. -/
def firstStrKey (fs : List (List Char × JVal)) : List (List Char) → Option (List Char)
  | [] => none
  | k :: ks =>
    match jlookup fs k with
    | some (.jstr s) => some s
    | _ => firstStrKey fs ks

def flatKeys : List (List Char) :=
  ["text".toList, "content".toList, "response".toList, "message".toList,
   "output".toList]

/-- Per-line update of `(response_text, session_id)` (lines 357-366). -/
def parseLineStep (fs : List (List Char × JVal)) (rt sid : Option JVal) :
    Option JVal × Option JVal :=
  let chain := pyOr (jlookup fs "session_id".toList)
    (pyOr (jlookup fs "sessionId".toList) (jlookup fs "chatId".toList))
  let sid2 :=
    match chain with
    | some v => if jtruthy v then some (JVal.jstr (pyStr v)) else sid
    | none => sid
  let rt2 :=
    match jlookup fs "result".toList with
    | some (.jstr s) => some (JVal.jstr (pyStrip s))
    | _ =>
      match rt with
      | some _ => rt
      | none => (firstStrKey fs flatKeys).map JVal.jstr
  (rt2, sid2)

/-- The per-line loop of lines 349-366. -/
def parseLoop (jparse : List Char → Option JVal) :
    List (List Char) → Option JVal → Option JVal →
    Option (Option JVal × Option JVal)
  | [], rt, sid => some (rt, sid)
  | l :: ls, rt, sid =>
    let l2 := pyStrip l
    if l2 = [] then parseLoop jparse ls rt sid
    else
      match jparse l2 with
      | none => parseLoop jparse ls rt sid
      | some (.jobj fs) =>
        let p := parseLineStep fs rt sid
        parseLoop jparse ls p.1 p.2
      | some _ => none

/-- `_parse_session_and_final_output(full_stdout, full_stderr, returncode)`;
result `none` when an uncaught exception escapes, else
`some (response_text, session_id)`. -/
def parseSFO (jparse : List Char → Option JVal)
    (stdout stderr : List Char) (rc : Int) : Option (JVal × Option JVal) :=
  match parseLoop jparse (pySplitlines stdout) none none with
  | none => none
  | some (rt0, sid0) =>
    let step2 : Option (Option JVal × Option JVal) :=
      if rt0.isNone ∧ stdout ≠ [] then
        let lastLine := (splitOnChar '\n' (pyStrip stdout)).getLastD []
        let lastLine2 := if lastLine = [] then "\x7b\x7d".toList else lastLine
        match jparse lastLine2 with
        | none => some (some (JVal.jstr stdout), sid0)
        | some (.jobj fs) =>
          let sid1 := pyOr sid0
            (pyOr (jlookup fs "session_id".toList) (jlookup fs "sessionId".toList))
          let rt1v := pyOr (jlookup fs "result".toList)
            (pyOr (jlookup fs "text".toList)
              (pyOr (jlookup fs "content".toList) (some (JVal.jstr stdout))))
          let rt1 :=
            match rt1v with
            | some (.jobj dfs) =>
              some ((jlookup dfs "content".toList).getD (JVal.jstr (pyStr (.jobj dfs))))
            | v => v
          some (rt1, sid1)
        | some _ => none
      else some (rt0, sid0)
    match step2 with
    | none => none
    | some (rt2, sid2) =>
      let rt3 :=
        if rc ≠ 0 ∧ ¬optTruthy rt2 then
          some (JVal.jstr
            (if stderr ≠ [] then stderr
             else "Agent exited with code ".toList ++ intChars rc))
        else rt2
      let final :=
        match rt3 with
        | some v => if jtruthy v then v else JVal.jstr "(no output)".toList
        | none => JVal.jstr "(no output)".toList
      some (final, sid2)

/-! ### Completion of a streaming run (agent_bot.py lines 511-517)

After the monitor loop ends, `run_agent_streaming` joins the captured output,
calls the parser with the return code hard-coded to `0`, drops the returned
`response_text`, and returns the session (falling back to the resume token).
The first component below is the list of messages sent to the user by this
completion code: it is empty on every path. -/

def runCompletion (jparse : List Char → Option JVal)
    (stdout stderr : List Char) (resume : Option (List Char)) :
    List (List Char) × Option (Option JVal) :=
  match parseSFO jparse stdout stderr 0 with
  | none => ([], none)
  | some (_, sid) =>
    ([], some (if optTruthy sid then sid else resume.map JVal.jstr))

/-- The session value `run_agent_streaming` returns (lines 514-517),
`none` when an exception escapes instead. -/
def runReturnSession (jparse : List Char → Option JVal)
    (stdout stderr : List Char) (resume : Option (List Char)) :
    Option (Option JVal) :=
  (runCompletion jparse stdout stderr resume).2

/-! ### Timeout monitor loop (agent_bot.py lines 493-509)

One tick per iteration (`time.sleep(1)`); `start_time = 0`, so after the
`i`-th sleep `now = i`.  The fuel bounds the observation horizon for a
subprocess that never terminates on its own (`process_done` is never set),
which is exactly the scenario of the timeout claims. -/

inductive MonAction where
  | typing
  | killProc
  | notice
deriving DecidableEq

def typingInterval : Nat := 4

/-- The monitor loop with an agent process that never finishes by itself:
arguments are `timeout_sec`, `last_typing`, `now`, remaining fuel; result is
the ordered action list and the `timed_out` flag. -/
def monitorGo (ts : Nat) : Nat → Nat → Nat → List MonAction × Bool
  | _, _, 0 => ([], false)
  | lastTy, now, fuel + 1 =>
    let now2 := now + 1
    if ts ≠ 0 ∧ ts ≤ now2 then ([.killProc, .notice], true)
    else if typingInterval ≤ now2 - lastTy then
      let r := monitorGo ts now2 now2 fuel
      (.typing :: r.1, r.2)
    else monitorGo ts lastTy now2 fuel

def monitorRun (ts fuel : Nat) : List MonAction × Bool :=
  monitorGo ts 0 0 fuel

/-! ### Update batching and one main-loop iteration
(agent_bot.py lines 541-596)

An inbound update carries the fields the loop reads.  `message` models
`upd.get("message") or upd.get("edited_message")` (whichever is present);
`photo` is the ordered small-to-large list of photo sizes, each with its
optional `file_id`.  The download oracle `dl` gives the success of
`download_telegram_photo` for a `file_id` (network behaviour; the destination
directory is created unconditionally). -/

structure Msg where
  from_id : Option Int
  chat : Int
  text : Option (List Char)
  caption : Option (List Char)
  photo : List (Option (List Char))
deriving DecidableEq

structure Update where
  update_id : Int
  message : Option Msg
deriving DecidableEq

inductive MainAction where
  | download (fid dest : List Char)
  | saveOffset (n : Int)
  | saveChatId (c : Int)
  | typing
  | runAgent (prompt : List Char)
  | saveSession
deriving DecidableEq

structure BatchState where
  texts : List (List Char)
  images : List (List Char)
  chat : Option Int
  downloads : List MainAction
deriving DecidableEq

def initialBatch : BatchState := ⟨[], [], none, []⟩

/-- The local file name `photo_<update_id>_<i>.jpg` (line 566); `i` is the
index of the update in the full poll response (`enumerate(updates)`). -/
def photoLocalName (uid : Int) (i : Nat) : List Char :=
  "photo_".toList ++ intChars uid ++ '_' :: natChars i ++ ".jpg".toList

/-- The workspace-relative path recorded for the agent (line 569). -/
def photoAgentPath (uid : Int) (i : Nat) : List Char :=
  "telegram-bot/received_images/".toList ++ photoLocalName uid i

/-- The body of the batching loop for one update (lines 548-572). -/
def procUpdate (allowed : Int) (dl : List Char → Bool) (i : Nat)
    (u : Update) (st : BatchState) : BatchState :=
  match u.message with
  | none => st
  | some m =>
    if m.from_id ≠ some allowed then st
    else
      let st1 := { st with chat := match st.chat with
                                   | none => some m.chat
                                   | some c => some c }
      let t := pyStrip (m.text.getD [])
      let st2 := if t ≠ [] then { st1 with texts := st1.texts ++ [t] } else st1
      if m.photo ≠ [] then
        let fid := (m.photo.getLastD none).getD []
        let st3 :=
          if fid ≠ [] then
            let st3a := { st2 with downloads :=
              st2.downloads ++ [.download fid (photoLocalName u.update_id i)] }
            if dl fid then
              { st3a with images := st3a.images ++ [photoAgentPath u.update_id i] }
            else st3a
          else st2
        let cap := pyStrip (m.caption.getD [])
        if cap ≠ [] then { st3 with texts := st3.texts ++ [cap] } else st3
      else st2

/-- The batching loop with its running `enumerate` index. -/
def batchGo (allowed : Int) (dl : List Char → Bool) :
    Nat → List Update → BatchState → BatchState
  | _, [], st => st
  | i, u :: us, st => batchGo allowed dl (i + 1) us (procUpdate allowed dl i u st)

def buildBatch (allowed : Int) (dl : List Char → Bool)
    (updates : List Update) : BatchState :=
  batchGo allowed dl 0 updates initialBatch

/-- The trailing image note of lines 583-587. -/
def imageNote (paths : List (List Char)) : List Char :=
  "\n\n[User sent ".toList ++ natChars paths.length ++
  " image(s). They are in the workspace at: ".toList ++
  List.intercalate ", ".toList paths ++
  ". Look at them and respond accordingly.]".toList

/-- The combined prompt of lines 582-587. -/
def promptOf (st : BatchState) : List Char :=
  let t := if st.texts ≠ [] then List.intercalate "\n\n".toList st.texts else []
  if st.images ≠ [] then t ++ imageNote st.images else t

/-- `updates[-1]["update_id"]` with a default that is never used on a
non-empty response. -/
def lastIdOf (updates : List Update) : Int :=
  (updates.getLastD ⟨0, none⟩).update_id

/-- The in-memory offset after handling one poll response (lines 541-542 skip
an empty response before the offset assignment at line 574). -/
def offsetAfter (prev : Int) (updates : List Update) : Int :=
  if updates.isEmpty then prev else lastIdOf updates + 1

/-- The ordered actions of one main-loop iteration on a poll response
(lines 541-596): photo downloads happen while the batch is built, then the
offset is persisted, then — unless the batch is empty — the chat id is
persisted, a typing action is sent and the agent is run. -/
def iterationActions (allowed : Int) (dl : List Char → Bool)
    (updates : List Update) : List MainAction :=
  if updates.isEmpty then []
  else
    let st := buildBatch allowed dl updates
    st.downloads ++ .saveOffset (lastIdOf updates + 1) ::
      (if st.texts = [] ∧ st.images = [] then []
       else
         match st.chat with
         | none => []
         | some c =>
           .saveChatId c ::
             (let text := promptOf st
              if pyStrip text = [] then []
              else [.typing, .runAgent text, .saveSession]))

/-! ### `extract_attach_image_paths` (agent_bot.py lines 255-271)

`isfile` is the `os.path.isfile` oracle and `repoRoot` the runtime value of
`REPO_ROOT`. -/

def attachPfx : List Char := "attach-image:".toList

/-- Path resolution of line 266: absolute paths kept, relative paths joined
to the repository root and normalised. -/
def resolveAttach (repoRoot p : List Char) : List Char :=
  if startsWithCL "/".toList p then p
  else normpathCL (posixJoin2 repoRoot p)

/-- The line loop of lines 261-270, returning (paths, kept lines). -/
def extractGo (isfile : List Char → Bool) (repoRoot : List Char) :
    List (List Char) → List (List Char) × List (List Char)
  | [] => ([], [])
  | l :: ls =>
    let r := extractGo isfile repoRoot ls
    let s := pyStrip l
    if startsWithCL attachPfx s then
      let p := pyStrip (s.drop attachPfx.length)
      if p ≠ [] then
        let cand := resolveAttach repoRoot p
        if isfile cand then (cand :: r.1, r.2) else r
      else r
    else (r.1, l :: r.2)

/-- `extract_attach_image_paths(text)`. -/
def extract_attach_image_paths (isfile : List Char → Bool)
    (repoRoot text : List Char) : List (List Char) × List Char :=
  let r := extractGo isfile repoRoot (splitNl text)
  (r.1, joinNl r.2)

/-- The photo sends issued by the flush code at lines 476-477: one
`send_photo` per extracted path, in order. -/
def flushPhotoSends (isfile : List Char → Bool)
    (repoRoot text : List Char) : List (List Char) :=
  (extract_attach_image_paths isfile repoRoot text).1

/-! ### `send_pending_attachments` (agent_bot.py lines 230-252)

A drop-folder is a list of directory entries (names unique in a real directory);
`deliverOk` is the success oracle of the individual `send_photo` /
`send_document` attempt (whose failure the source swallows). -/

structure DirEntry where
  name : List Char
  isFile : Bool
deriving DecidableEq

inductive AttachAction where
  | photoSend (path : List Char) (ok : Bool)
  | docSend (path : List Char) (ok : Bool)
  | unlink (path : List Char)
deriving DecidableEq

def imageExts : List (List Char) :=
  [".png".toList, ".jpg".toList, ".jpeg".toList, ".gif".toList, ".webp".toList]

/-- `any(lower.endswith(ext) for ext in _IMAGE_EXTENSIONS)` (line 241). -/
def isImageName (lower : List Char) : Bool :=
  imageExts.any (fun e => endsWithCL e lower)

/-- Lexicographic comparison of names by code point (Python `sorted`). -/
def clLe : List Char → List Char → Bool
  | [], _ => true
  | _ :: _, [] => false
  | a :: as, b :: bs => if a = b then clLe as bs else decide (a < b)

def entryLe (a b : DirEntry) : Prop := clLe a.name b.name = true

instance : DecidableRel entryLe := fun a b => by
  unfold entryLe; infer_instance

/-- The delivery attempt for one listed regular file (lines 240-246). -/
def routeOf (deliverOk : List Char → Bool) (dir : List Char) (e : DirEntry) :
    AttachAction :=
  let path := posixJoin2 dir e.name
  if isImageName (pyLower e.name) then .photoSend path (deliverOk path)
  else .docSend path (deliverOk path)

/-- The loop over the sorted listing, threading the folder state: each listed
regular file gets one delivery attempt and one unlink (which removes the
entry of that name), non-files are skipped. -/
def drainGo (deliverOk : List Char → Bool) (dir : List Char) :
    List DirEntry → List DirEntry → List AttachAction × List DirEntry
  | [], fd => ([], fd)
  | e :: es, fd =>
    if ¬e.isFile then drainGo deliverOk dir es fd
    else
      let path := posixJoin2 dir e.name
      let fd2 := fd.filter (fun x => x.name ≠ e.name)
      let r := drainGo deliverOk dir es fd2
      (routeOf deliverOk dir e :: .unlink path :: r.1, r.2)

/-- One drain pass of `send_pending_attachments` over an existing folder:
list the entries in sorted name order, deliver and delete each regular file;
result is the ordered action list and the folder contents afterwards. -/
def send_pending_attachments (deliverOk : List Char → Bool)
    (dir : List Char) (folder : List DirEntry) :
    List AttachAction × List DirEntry :=
  drainGo deliverOk dir (List.insertionSort entryLe folder) folder

/-! ### Predicates used by the claim statements -/

/-- No two consecutive blank (empty or whitespace-only) lines. -/
def noTwoAdjBlank : List (List Char) → Bool
  | [] => true
  | [_] => true
  | a :: b :: rest => !(isBlankL a && isBlankL b) && noTwoAdjBlank (b :: rest)

/-- The shape invariant of `collapse_blank_lines` output lines: every blank
line is literally empty, and no two adjacent lines are blank. -/
def blankNorm : List (List Char) → Bool
  | [] => true
  | [l] => !isBlankL l || l.isEmpty
  | a :: b :: rest =>
    (!isBlankL a || a.isEmpty) && !(isBlankL a && isBlankL b) && blankNorm (b :: rest)

/-- Whether the batching loop accepts an update: it carries a message whose
sender id equals the allowed id (lines 549-554). -/
def acceptedBy (allowed : Int) (u : Update) : Bool :=
  match u.message with
  | some m => m.from_id = some allowed
  | none => false

/-- The updates of one poll response restricted to the allowed sender
(the updates the batching loop does not skip). -/
def allowedUpdates (allowed : Int) (updates : List Update) : List Update :=
  updates.filter (acceptedBy allowed)

/-- The texts one accepted update contributes to the batch: its stripped
non-empty text, then — when it carries photos — its stripped non-empty
caption. -/
def textsOfMsg (m : Msg) : List (List Char) :=
  (let t := pyStrip (m.text.getD []); if t ≠ [] then [t] else []) ++
  (if m.photo ≠ [] then
     let cap := pyStrip (m.caption.getD []); if cap ≠ [] then [cap] else []
   else [])

def textsOfUpdate (u : Update) : List (List Char) :=
  match u.message with
  | some m => textsOfMsg m
  | none => []

/-- The `file_id` whose download one accepted update triggers (the largest
photo size, when its `file_id` is a non-empty string). -/
def fidOfUpdate (u : Update) : List (List Char) :=
  match u.message with
  | some m =>
    if m.photo ≠ [] then
      let fid := (m.photo.getLastD none).getD []
      if fid ≠ [] then [fid] else []
    else []
  | none => []

/-- The chat id recorded for a response: the chat of the first accepted
update. -/
def chatOf (allowed : Int) (updates : List Update) : Option Int :=
  updates.findSome? fun u =>
    match u.message with
    | some m => if m.from_id = some allowed then some m.chat else none
    | none => none

/-- The directive decision for one line, as the claim states it: a line whose
stripped form starts with `attach-image:` and whose referenced path resolves
to an existing file yields that resolved path. -/
def attachPathOf (isfile : List Char → Bool) (repoRoot l : List Char) :
    Option (List Char) :=
  let s := pyStrip l
  if startsWithCL attachPfx s then
    let p := pyStrip (s.drop attachPfx.length)
    if p ≠ [] then
      let cand := resolveAttach repoRoot p
      if isfile cand then some cand else none
    else none
  else none

/-- The `file_id` arguments of the download attempts recorded in a batch
state. -/
def dlFids (st : BatchState) : List (List Char) :=
  st.downloads.filterMap fun a =>
    match a with
    | MainAction.download f _ => some f
    | _ => none

/-! ## Lemmas -/

theorem splitOnChar_ne_nil (sep : Char) (s : List Char) :
    splitOnChar sep s ≠ [] := by
  induction s with
  | nil => simp [splitOnChar]
  | cons c rest ih =>
    by_cases hc : c = sep
    · simp [splitOnChar, hc]
    · simp only [splitOnChar, if_neg hc]
      cases h : splitOnChar sep rest with
      | nil => simp
      | cons r rs => simp

theorem not_mem_of_mem_splitOnChar (sep : Char) (s : List Char) :
    ∀ l ∈ splitOnChar sep s, sep ∉ l := by
  induction s with
  | nil =>
    intro l hl
    simp [splitOnChar] at hl
    simp [hl]
  | cons c rest ih =>
    intro l hl
    by_cases hc : c = sep
    · simp only [splitOnChar, if_pos hc] at hl
      rcases List.mem_cons.mp hl with h | h
      · simp [h]
      · exact ih l h
    · simp only [splitOnChar, if_neg hc] at hl
      cases h : splitOnChar sep rest with
      | nil => exact absurd h (splitOnChar_ne_nil sep rest)
      | cons r rs =>
        rw [h] at hl
        rcases List.mem_cons.mp hl with h2 | h2
        · subst h2
          intro hmem
          rcases List.mem_cons.mp hmem with h3 | h3
          · exact hc h3.symm
          · exact ih r (h ▸ List.mem_cons_self r rs) h3
        · exact ih l (h ▸ List.mem_cons_of_mem r h2)

theorem splitOnChar_of_not_mem (sep : Char) (l : List Char) (h : sep ∉ l) :
    splitOnChar sep l = [l] := by
  induction l with
  | nil => rfl
  | cons c rest ih =>
    have hc : c ≠ sep := fun he => h (he ▸ List.mem_cons_self c rest)
    have hrest : sep ∉ rest := fun hm => h (List.mem_cons_of_mem c hm)
    simp only [splitOnChar, if_neg hc, ih hrest]

theorem splitOnChar_append_sep (sep : Char) (l t : List Char) (h : sep ∉ l) :
    splitOnChar sep (l ++ sep :: t) = l :: splitOnChar sep t := by
  induction l with
  | nil => simp [splitOnChar]
  | cons c rest ih =>
    have hc : c ≠ sep := fun he => h (he ▸ List.mem_cons_self c rest)
    have hrest : sep ∉ rest := fun hm => h (List.mem_cons_of_mem c hm)
    simp only [List.cons_append, splitOnChar, if_neg hc]
    rw [show rest.append (sep :: t) = rest ++ sep :: t from rfl, ih hrest]

theorem splitNl_joinNl (ls : List (List Char)) (hne : ls ≠ [])
    (hnl : ∀ l ∈ ls, '\n' ∉ l) : splitNl (joinNl ls) = ls := by
  induction ls with
  | nil => exact absurd rfl hne
  | cons l ls ih =>
    cases ls with
    | nil =>
      show splitOnChar '\n' l = [l]
      exact splitOnChar_of_not_mem '\n' l (hnl l (List.mem_cons_self l []))
    | cons m ms =>
      show splitOnChar '\n' (l ++ '\n' :: joinNl (m :: ms)) = l :: m :: ms
      rw [splitOnChar_append_sep '\n' l _ (hnl l (List.mem_cons_self _ _))]
      have : splitNl (joinNl (m :: ms)) = m :: ms :=
        ih (by simp) (fun x hx => hnl x (List.mem_cons_of_mem l hx))
      exact congrArg (l :: ·) this

theorem joinNl_eq_nil (ls : List (List Char)) (h : joinNl ls = []) :
    ls = [] ∨ ls = [[]] := by
  match ls with
  | [] => exact Or.inl rfl
  | [l] => exact Or.inr (by simp [joinNl] at h; simp [h])
  | l :: m :: ms =>
    exfalso
    have : l ++ '\n' :: joinNl (m :: ms) = [] := h
    simp at this

/-! ### Chunking lemmas (claim C6) -/

theorem chunksAux_flatten (fuel : Nat) :
    ∀ l : List Char, l.length ≤ fuel → (chunksAux fuel l).flatten = l := by
  induction fuel with
  | zero =>
    intro l h
    have : l = [] := List.eq_nil_of_length_eq_zero (Nat.le_zero.mp h)
    subst this
    rfl
  | succ f ih =>
    intro l h
    cases l with
    | nil => rfl
    | cons c cs =>
      show ((c :: cs).take chunkSize :: chunksAux f ((c :: cs).drop chunkSize)).flatten
        = c :: cs
      rw [List.flatten_cons, ih _ (by simp at h; simp [chunkSize]; omega)]
      exact List.take_append_drop _ _

theorem chunksAux_le (fuel : Nat) :
    ∀ l c : List Char, c ∈ chunksAux fuel l → c.length ≤ chunkSize := by
  induction fuel with
  | zero => intro l c h; simp [chunksAux] at h
  | succ f ih =>
    intro l c h
    cases l with
    | nil => simp [chunksAux] at h
    | cons x xs =>
      rcases List.mem_cons.mp h with h2 | h2
      · subst h2; simpa using List.length_take_le chunkSize (x :: xs)
      · exact ih _ c h2

theorem chunksAux_length (fuel : Nat) :
    ∀ l : List Char, l.length ≤ fuel →
      (chunksAux fuel l).length = (l.length + 4095) / 4096 := by
  induction fuel with
  | zero =>
    intro l h
    have : l = [] := List.eq_nil_of_length_eq_zero (Nat.le_zero.mp h)
    subst this
    simp [chunksAux]
  | succ f ih =>
    intro l h
    cases l with
    | nil => simp [chunksAux]
    | cons x xs =>
      show (List.take chunkSize (x :: xs) :: chunksAux f (List.drop chunkSize (x :: xs))).length
        = ((x :: xs).length + 4095) / 4096
      rw [List.length_cons, ih _ (by simp at h; simp [chunkSize]; omega), List.length_drop]
      simp only [chunkSize]
      have hn : (x :: xs).length = xs.length + 1 := List.length_cons x xs
      rw [hn]
      by_cases hc : xs.length + 1 ≤ 4096
      · have h0 : xs.length + 1 - 4096 = 0 := Nat.sub_eq_zero_of_le hc
        rw [h0]
        have e1 : (0 + 4095) / 4096 = 0 := by norm_num
        have e2 : (xs.length + 1 + 4095) / 4096 = 1 := by
          have hsplit : xs.length + 1 + 4095 = xs.length + 4096 := by omega
          rw [hsplit, Nat.add_div_right _ (by norm_num)]
          have : xs.length / 4096 = 0 := Nat.div_eq_of_lt (by omega)
          omega
        rw [e1, e2]
      · have h1 : xs.length + 1 - 4096 + 4095 = xs.length := by omega
        have h2 : xs.length + 1 + 4095 = xs.length + 4096 := by omega
        rw [h1, h2, Nat.add_div_right _ (by norm_num)]

/-! ## Claim theorems -/

/-- C6: for every non-empty text passed to `send_message`, the sender issues
exactly `ceil(n / 4096)` send calls, each carrying a segment of at most 4096
characters, in order, whose concatenation is the original text; a 9000-unit
body yields exactly 3 calls. -/
theorem send_message_chunking (text : List Char) (h : text ≠ []) :
    (send_message_chunks text).length = (text.length + 4095) / 4096 ∧
    (∀ c ∈ send_message_chunks text, c.length ≤ 4096) ∧
    (send_message_chunks text).flatten = text ∧
    (text.length = 9000 → (send_message_chunks text).length = 3) := by
  have hlen : (send_message_chunks text).length = (text.length + 4095) / 4096 :=
    chunksAux_length text.length text (Nat.le_refl _)
  refine ⟨hlen, ?_, ?_, ?_⟩
  · intro c hc
    simpa [chunkSize] using chunksAux_le text.length text c hc
  · exact chunksAux_flatten text.length text (Nat.le_refl _)
  · intro h9
    rw [hlen, h9]

/-- Witness for C6 at the concrete text `"ab"`. -/
theorem send_message_chunking_witness :
    (send_message_chunks "ab".toList).flatten = "ab".toList :=
  (send_message_chunking "ab".toList (by decide)).2.2.1

/-! ### `collapse_blank_lines` lemmas (claim C10) -/

theorem isBlankL_nil : isBlankL [] = true := rfl

theorem collapseGo_mem (b : Bool) (ls : List (List Char)) :
    ∀ l ∈ collapseGo b ls, l = [] ∨ l ∈ ls := by
  induction ls generalizing b with
  | nil => intro l hl; simp [collapseGo] at hl
  | cons x xs ih =>
    intro l hl
    by_cases hx : isBlankL x
    · cases b with
      | true =>
        simp only [collapseGo, if_pos hx] at hl
        rcases ih true l hl with h | h
        · exact Or.inl h
        · exact Or.inr (List.mem_cons_of_mem x h)
      | false =>
        simp only [collapseGo, if_pos hx] at hl
        rcases List.mem_cons.mp hl with h | h
        · exact Or.inl h
        · rcases ih true l h with h2 | h2
          · exact Or.inl h2
          · exact Or.inr (List.mem_cons_of_mem x h2)
    · simp only [collapseGo, if_neg hx] at hl
      rcases List.mem_cons.mp hl with h | h
      · exact Or.inr (h ▸ List.mem_cons_self x xs)
      · rcases ih false l h with h2 | h2
        · exact Or.inl h2
        · exact Or.inr (List.mem_cons_of_mem x h2)

theorem collapseGo_filter (b : Bool) (ls : List (List Char)) :
    (collapseGo b ls).filter (fun l => !isBlankL l)
      = ls.filter (fun l => !isBlankL l) := by
  induction ls generalizing b with
  | nil => cases b <;> rfl
  | cons x xs ih =>
    by_cases hx : isBlankL x
    · have hxf : List.filter (fun l => !isBlankL l) (x :: xs)
          = List.filter (fun l => !isBlankL l) xs :=
        List.filter_cons_of_neg (by simp [hx])
      cases b with
      | true =>
        have e : collapseGo true (x :: xs) = collapseGo true xs := by
          simp [collapseGo, hx]
        rw [e, ih true, hxf]
      | false =>
        have e : collapseGo false (x :: xs) = [] :: collapseGo true xs := by
          simp [collapseGo, hx]
        rw [e, List.filter_cons_of_neg (by simp [isBlankL_nil]), ih true, hxf]
    · have e : collapseGo b (x :: xs) = x :: collapseGo false xs := by
        cases b <;> simp [collapseGo, hx]
      rw [e, List.filter_cons_of_pos (by simp [hx]), ih false,
        List.filter_cons_of_pos (by simp [hx])]

theorem blankNorm_two (a : List Char) (x : List Char) (xs : List (List Char)) :
    blankNorm (a :: x :: xs)
      = ((!isBlankL a || a.isEmpty) && !(isBlankL a && isBlankL x)
          && blankNorm (x :: xs)) := rfl

theorem blankNorm_tail (a : List Char) (ls : List (List Char))
    (h : blankNorm (a :: ls) = true) : blankNorm ls = true := by
  cases ls with
  | nil => rfl
  | cons x xs =>
    rw [blankNorm_two] at h
    exact (Bool.and_eq_true_iff.mp h).2

theorem blankNorm_cons_nonblank (a : List Char) (ls : List (List Char))
    (ha : isBlankL a = false) (h : blankNorm ls = true) :
    blankNorm (a :: ls) = true := by
  cases ls with
  | nil => simp [blankNorm, ha]
  | cons x xs => rw [blankNorm_two]; simp [ha, h]

theorem blankNorm_cons_blank (ls : List (List Char))
    (h : blankNorm ls = true)
    (hh : ∀ h2 t2, ls = h2 :: t2 → isBlankL h2 = false) :
    blankNorm ([] :: ls) = true := by
  cases ls with
  | nil => simp [blankNorm, isBlankL_nil]
  | cons x xs =>
    rw [blankNorm_two]
    simp [isBlankL_nil, hh x xs rfl, h, List.isEmpty]

theorem collapseGo_norm (ls : List (List Char)) :
    blankNorm (collapseGo false ls) = true ∧
    blankNorm (collapseGo true ls) = true ∧
    (∀ h2 t2, collapseGo true ls = h2 :: t2 → isBlankL h2 = false) := by
  induction ls with
  | nil => refine ⟨rfl, rfl, ?_⟩; intro h2 t2 h; simp [collapseGo] at h
  | cons x xs ih =>
    obtain ⟨ihF, ihT, ihH⟩ := ih
    by_cases hx : isBlankL x
    · refine ⟨?_, ?_, ?_⟩
      · simp only [collapseGo, if_pos hx]
        exact blankNorm_cons_blank _ ihT ihH
      · simp only [collapseGo, if_pos hx]
        exact ihT
      · intro h2 t2 h
        simp only [collapseGo, if_pos hx] at h
        exact ihH h2 t2 h
    · refine ⟨?_, ?_, ?_⟩
      · simp only [collapseGo, if_neg hx]
        exact blankNorm_cons_nonblank x _ (by simpa using hx) ihF
      · simp only [collapseGo, if_neg hx]
        exact blankNorm_cons_nonblank x _ (by simpa using hx) ihF
      · intro h2 t2 h
        simp only [collapseGo, if_neg hx] at h
        obtain ⟨e1, e2⟩ := List.cons.inj h
        rw [← e1]
        simpa using hx

theorem collapseGo_fix (ls : List (List Char)) (h : blankNorm ls = true) :
    collapseGo false ls = ls := by
  induction ls with
  | nil => rfl
  | cons x xs ih =>
    by_cases hx : isBlankL x
    · have hxe : x = [] := by
        cases xs with
        | nil =>
          have : (!isBlankL x || x.isEmpty) = true := h
          rcases Bool.or_eq_true_iff.mp this with h2 | h2
          · rw [hx] at h2; simp at h2
          · exact List.isEmpty_iff.mp h2
        | cons m ms =>
          rw [blankNorm_two] at h
          have := (Bool.and_eq_true_iff.mp (Bool.and_eq_true_iff.mp h).1).1
          rcases Bool.or_eq_true_iff.mp this with h2 | h2
          · rw [hx] at h2; simp at h2
          · exact List.isEmpty_iff.mp h2
      subst hxe
      cases xs with
      | nil => rfl
      | cons m ms =>
        have hm : isBlankL m = false := by
          rw [blankNorm_two] at h
          have := (Bool.and_eq_true_iff.mp (Bool.and_eq_true_iff.mp h).1).2
          rw [isBlankL_nil] at this
          simpa using this
        have htail := ih (blankNorm_tail _ _ h)
        simp only [collapseGo, if_neg (by simp [hm] : ¬isBlankL m = true)] at htail
        have hms : collapseGo false ms = ms := (List.cons.inj htail).2
        show [] :: collapseGo true (m :: ms) = [] :: m :: ms
        simp only [collapseGo, if_neg (by simp [hm] : ¬isBlankL m = true)]
        rw [hms]
    · simp only [collapseGo, if_neg hx]
      rw [ih (blankNorm_tail _ _ h)]

theorem blankNorm_noTwo (ls : List (List Char)) (h : blankNorm ls = true) :
    noTwoAdjBlank ls = true := by
  induction ls with
  | nil => rfl
  | cons x xs ih =>
    cases xs with
    | nil => rfl
    | cons m ms =>
      rw [blankNorm_two] at h
      have h1 := Bool.and_eq_true_iff.mp h
      have h2 := (Bool.and_eq_true_iff.mp h1.1).2
      show (!(isBlankL x && isBlankL m) && noTwoAdjBlank (m :: ms)) = true
      simp only [Bool.and_eq_true_iff]
      exact ⟨h2, ih h1.2⟩

theorem collapseGo_false_ne_nil (ls : List (List Char)) (h : ls ≠ []) :
    collapseGo false ls ≠ [] := by
  cases ls with
  | nil => exact absurd rfl h
  | cons x xs =>
    by_cases hx : isBlankL x
    · simp [collapseGo, hx]
    · simp [collapseGo, hx]

theorem collapseGo_no_newline (b : Bool) (ls : List (List Char))
    (h : ∀ l ∈ ls, '\n' ∉ l) : ∀ l ∈ collapseGo b ls, '\n' ∉ l := by
  intro l hl
  rcases collapseGo_mem b ls l hl with h2 | h2
  · subst h2; simp
  · exact h l h2

/-- C10: `collapse_blank_lines` is idempotent; its output never contains two
consecutive blank (empty or whitespace-only) lines; and every non-blank line
of the input is preserved verbatim and in order. -/
theorem collapse_blank_lines_spec (t : List Char) :
    collapse_blank_lines (collapse_blank_lines t) = collapse_blank_lines t ∧
    noTwoAdjBlank (splitNl (collapse_blank_lines t)) = true ∧
    (splitNl (collapse_blank_lines t)).filter (fun l => !isBlankL l)
      = (splitNl t).filter (fun l => !isBlankL l) := by
  by_cases ht : t = []
  · subst ht
    refine ⟨rfl, rfl, rfl⟩
  · have hct : collapse_blank_lines t = joinNl (collapseGo false (splitNl t)) := by
      simp [collapse_blank_lines, ht]
    obtain ⟨hnormF, _, _⟩ := collapseGo_norm (splitNl t)
    have hmem : ∀ l ∈ collapseGo false (splitNl t), '\n' ∉ l :=
      collapseGo_no_newline false (splitNl t)
        (not_mem_of_mem_splitOnChar '\n' t)
    have hne : collapseGo false (splitNl t) ≠ [] :=
      collapseGo_false_ne_nil (splitNl t) (splitOnChar_ne_nil '\n' t)
    by_cases hr : collapse_blank_lines t = []
    · have hout : collapseGo false (splitNl t) = [[]] := by
        rcases joinNl_eq_nil _ (hct ▸ hr) with h | h
        · exact absurd h hne
        · exact h
      refine ⟨?_, ?_, ?_⟩
      · rw [hr]; rfl
      · rw [hr]; rfl
      · rw [hr]
        have : (splitNl t).filter (fun l => !isBlankL l)
            = (collapseGo false (splitNl t)).filter (fun l => !isBlankL l) :=
          (collapseGo_filter false (splitNl t)).symm
        rw [this, hout]
        rfl
    · have hsplit : splitNl (collapse_blank_lines t) = collapseGo false (splitNl t) := by
        rw [hct]
        exact splitNl_joinNl _ hne hmem
      refine ⟨?_, ?_, ?_⟩
      · have h2 : collapse_blank_lines (collapse_blank_lines t)
            = joinNl (collapseGo false (splitNl (collapse_blank_lines t))) := by
          generalize hu : collapse_blank_lines t = u at hr hsplit ⊢
          simp [collapse_blank_lines, hr]
        rw [h2, hsplit, collapseGo_fix _ hnormF, hct]
      · rw [hsplit]
        exact blankNorm_noTwo _ hnormF
      · rw [hsplit]
        exact collapseGo_filter false (splitNl t)

/-- C7: a poll response of exactly three text-only updates from the allowed
user with texts "a", "b", "c" causes exactly one agent invocation, whose
prompt is exactly `"a\n\nb\n\nc"` (texts joined by one blank line, and no
trailing image note since nothing was downloaded). -/
theorem batch_prompt_three_texts (dl : List Char → Bool) :
    (iterationActions 7 dl
        [⟨1, some ⟨some 7, 5, some "a".toList, none, []⟩⟩,
         ⟨2, some ⟨some 7, 5, some "b".toList, none, []⟩⟩,
         ⟨3, some ⟨some 7, 5, some "c".toList, none, []⟩⟩]).filterMap
        (fun a => match a with
          | MainAction.runAgent p => some p
          | _ => none)
      = ["a\n\nb\n\nc".toList] := rfl

/-! ### `extract_attach_image_paths` lemmas (claim C8) -/

theorem extractGo_spec (isfile : List Char → Bool) (repoRoot : List Char) :
    ∀ ls : List (List Char),
      extractGo isfile repoRoot ls
        = (ls.filterMap (attachPathOf isfile repoRoot),
           ls.filter (fun l => !startsWithCL attachPfx (pyStrip l))) := by
  intro ls
  induction ls with
  | nil => rfl
  | cons l ls ih =>
    by_cases hs : startsWithCL attachPfx (pyStrip l)
    · by_cases hp : pyStrip ((pyStrip l).drop attachPfx.length) ≠ []
      · by_cases hf : isfile (resolveAttach repoRoot (pyStrip ((pyStrip l).drop attachPfx.length)))
        · simp only [extractGo, ih, if_pos hs, if_pos hp, if_pos hf]
          rw [List.filterMap_cons, List.filter_cons_of_neg (by simp [hs])]
          simp [attachPathOf, hs, hp, hf]
        · simp only [extractGo, ih, if_pos hs, if_pos hp, if_neg hf]
          rw [List.filterMap_cons, List.filter_cons_of_neg (by simp [hs])]
          simp [attachPathOf, hs, hp, hf]
      · simp only [extractGo, ih, if_pos hs, if_neg hp]
        rw [List.filterMap_cons, List.filter_cons_of_neg (by simp [hs])]
        simp [attachPathOf, hs, hp]
    · simp only [extractGo, ih, if_neg hs]
      rw [List.filterMap_cons, List.filter_cons_of_pos (by simp [hs])]
      simp [attachPathOf, hs]

/-- C8: in every flushed text, each line whose stripped form starts with
`attach-image:` is removed from the displayed text whether or not the
referenced file exists; the flush sends exactly one photo per such line whose
referenced path is an existing file (in order); and all other lines are kept
unchanged and in order. -/
theorem attach_image_extraction (isfile : List Char → Bool)
    (repoRoot text : List Char) :
    (extract_attach_image_paths isfile repoRoot text).2
      = joinNl ((splitNl text).filter
          (fun l => !startsWithCL attachPfx (pyStrip l))) ∧
    (extract_attach_image_paths isfile repoRoot text).1
      = (splitNl text).filterMap (attachPathOf isfile repoRoot) ∧
    flushPhotoSends isfile repoRoot text
      = (splitNl text).filterMap (attachPathOf isfile repoRoot) := by
  have h := extractGo_spec isfile repoRoot (splitNl text)
  refine ⟨?_, ?_, ?_⟩
  · show joinNl (extractGo isfile repoRoot (splitNl text)).2 = _
    rw [h]
  · show (extractGo isfile repoRoot (splitNl text)).1 = _
    rw [h]
  · show (extractGo isfile repoRoot (splitNl text)).1 = _
    rw [h]

/-! ### Drop-folder drain lemmas (claim C9) -/

theorem clLe_total : ∀ a b : List Char, clLe a b = true ∨ clLe b a = true := by
  intro a
  induction a with
  | nil => intro b; exact Or.inl rfl
  | cons x xs ih =>
    intro b
    cases b with
    | nil => exact Or.inr rfl
    | cons y ys =>
      by_cases hxy : x = y
      · subst hxy
        rcases ih ys with h | h
        · exact Or.inl (by simp [clLe, h])
        · exact Or.inr (by simp [clLe, h])
      · rcases lt_trichotomy x y with h | h | h
        · refine Or.inl ?_
          have e : clLe (x :: xs) (y :: ys) = decide (x < y) := by simp [clLe, hxy]
          rw [e]; exact decide_eq_true h
        · exact absurd h hxy
        · refine Or.inr ?_
          have e : clLe (y :: ys) (x :: xs) = decide (y < x) := by
            simp [clLe, Ne.symm hxy]
          rw [e]; exact decide_eq_true h

theorem clLe_trans :
    ∀ a b c : List Char, clLe a b = true → clLe b c = true → clLe a c = true := by
  intro a
  induction a with
  | nil => intro b c _ _; rfl
  | cons x xs ih =>
    intro b c hab hbc
    cases b with
    | nil => simp [clLe] at hab
    | cons y ys =>
      cases c with
      | nil => simp [clLe] at hbc
      | cons z zs =>
        by_cases hxy : x = y
        · subst hxy
          by_cases hyz : x = z
          · subst hyz
            simp only [clLe, if_pos rfl] at hab hbc ⊢
            exact ih ys zs hab hbc
          · have hlt : x < z := by
              have e : clLe (x :: ys) (z :: zs) = decide (x < z) := by
                simp [clLe, hyz]
              rw [e] at hbc; exact of_decide_eq_true hbc
            have e2 : clLe (x :: xs) (z :: zs) = decide (x < z) := by
              simp [clLe, hyz]
            rw [e2]; exact decide_eq_true hlt
        · have hxylt : x < y := by
            have e : clLe (x :: xs) (y :: ys) = decide (x < y) := by
              simp [clLe, hxy]
            rw [e] at hab; exact of_decide_eq_true hab
          by_cases hyz : y = z
          · subst hyz
            have e2 : clLe (x :: xs) (y :: zs) = decide (x < y) := by
              simp [clLe, hxy]
            rw [e2]; exact decide_eq_true hxylt
          · have hyzlt : y < z := by
              have e : clLe (y :: ys) (z :: zs) = decide (y < z) := by
                simp [clLe, hyz]
              rw [e] at hbc; exact of_decide_eq_true hbc
            have hxz : x < z := lt_trans hxylt hyzlt
            have e2 : clLe (x :: xs) (z :: zs) = decide (x < z) := by
              simp [clLe, ne_of_lt hxz]
            rw [e2]; exact decide_eq_true hxz

instance : IsTotal DirEntry entryLe :=
  ⟨fun a b => clLe_total a.name b.name⟩

instance : IsTrans DirEntry entryLe :=
  ⟨fun a b c => clLe_trans a.name b.name c.name⟩

theorem drainGo_fst (dOk : List Char → Bool) (dir : List Char) :
    ∀ ls fd : List DirEntry,
      (drainGo dOk dir ls fd).1
        = ((ls.filter (fun e => e.isFile)).map
            (fun e => [routeOf dOk dir e,
                       AttachAction.unlink (posixJoin2 dir e.name)])).flatten := by
  intro ls
  induction ls with
  | nil => intro fd; rfl
  | cons e es ih =>
    intro fd
    by_cases he : e.isFile
    · rw [List.filter_cons_of_pos (by simp [he])]
      simp only [drainGo, he, not_true, if_neg (by simp : ¬¬True)]
      simp [ih, he]
    · rw [List.filter_cons_of_neg (by simp [he])]
      simp only [drainGo]
      rw [if_pos (by simp [he])]
      exact ih fd

theorem drainGo_snd (dOk : List Char → Bool) (dir : List Char) :
    ∀ ls fd : List DirEntry,
      (drainGo dOk dir ls fd).2
        = fd.filter (fun x =>
            !decide (x.name ∈ (ls.filter (fun e => e.isFile)).map DirEntry.name)) := by
  intro ls
  induction ls with
  | nil =>
    intro fd
    show fd = _
    rw [List.filter_congr (fun x _ => by simp : ∀ x ∈ fd, _ = true)]
    exact (List.filter_true fd).symm
  | cons e es ih =>
    intro fd
    by_cases he : e.isFile
    · rw [List.filter_cons_of_pos (by simp [he])]
      have step : (drainGo dOk dir (e :: es) fd).2
          = (drainGo dOk dir es (fd.filter (fun x => x.name ≠ e.name))).2 := by
        simp only [drainGo, he]
        rw [if_neg (by simp)]
      rw [step, ih, List.filter_filter]
      refine List.filter_congr ?_
      intro x _
      by_cases h1 : x.name = e.name <;>
        by_cases h2 : x.name ∈ (es.filter (fun e => e.isFile)).map DirEntry.name <;>
        simp [h1, h2]
    · rw [List.filter_cons_of_neg (by simp [he])]
      have step : (drainGo dOk dir (e :: es) fd).2 = (drainGo dOk dir es fd).2 := by
        simp only [drainGo]
        rw [if_pos (by simp [he])]
      rw [step, ih]

/-- C9: one drain pass of `send_pending_attachments` visits the folder's
regular files in sorted name order; each visited file gets exactly one
delivery attempt — routed to photo delivery when its lowercased name ends in
an image extension, else to document delivery — followed by its deletion,
regardless of delivery success (`deliverOk` is arbitrary); afterwards the
folder holds exactly its non-regular-file entries. -/
theorem drain_pass_spec (deliverOk : List Char → Bool) (dir : List Char)
    (folder : List DirEntry) (hnd : (folder.map DirEntry.name).Nodup) :
    (send_pending_attachments deliverOk dir folder).1
      = (((List.insertionSort entryLe folder).filter (fun e => e.isFile)).map
          (fun e => [routeOf deliverOk dir e,
                     AttachAction.unlink (posixJoin2 dir e.name)])).flatten ∧
    List.Sorted entryLe (List.insertionSort entryLe folder) ∧
    (List.insertionSort entryLe folder).Perm folder ∧
    (send_pending_attachments deliverOk dir folder).2
      = folder.filter (fun e => !e.isFile) := by
  have hperm : (List.insertionSort entryLe folder).Perm folder :=
    List.perm_insertionSort entryLe folder
  refine ⟨drainGo_fst deliverOk dir _ folder,
    List.sorted_insertionSort entryLe folder, hperm, ?_⟩
  rw [show (send_pending_attachments deliverOk dir folder).2
      = (drainGo deliverOk dir (List.insertionSort entryLe folder) folder).2 from rfl,
    drainGo_snd]
  refine List.filter_congr ?_
  intro x hx
  by_cases hf : x.isFile
  · have hmem : x.name ∈ ((List.insertionSort entryLe folder).filter
        (fun e => e.isFile)).map DirEntry.name := by
      refine List.mem_map_of_mem DirEntry.name ?_
      refine List.mem_filter.mpr ⟨hperm.mem_iff.mpr hx, by simp [hf]⟩
    simp [hmem, hf]
  · have hnmem : x.name ∉ ((List.insertionSort entryLe folder).filter
        (fun e => e.isFile)).map DirEntry.name := by
      intro hmem
      obtain ⟨y, hy, hyname⟩ := List.mem_map.mp hmem
      have hyf := List.mem_filter.mp hy
      have hyfolder : y ∈ folder := hperm.mem_iff.mp hyf.1
      have : y = x := List.inj_on_of_nodup_map hnd hyfolder hx hyname
      subst this
      simp [hf] at hyf
    simp [hnmem, hf]

/-- Witness for C9 on the folder `{a.png, b.txt}` with always-succeeding
delivery: drained actions are photo(a.png), unlink, document(b.txt), unlink,
and the folder ends empty. -/
theorem drain_pass_spec_witness :
    (send_pending_attachments (fun _ => true) "/p".toList
        [⟨"a.png".toList, true⟩, ⟨"b.txt".toList, true⟩]).2 = [] :=
  (drain_pass_spec (fun _ => true) "/p".toList
      [⟨"a.png".toList, true⟩, ⟨"b.txt".toList, true⟩] (by decide)).2.2.2

/-! ### Streaming classification (claim C3) -/

theorem processLine_jobj (fs : List (List Char × JVal)) :
    processLine (JVal.jobj fs)
      = (match msgTypeOf (JVal.jobj fs) with
         | none => StepRes.crash
         | some ty =>
           if ty = "thinking".toList then StepRes.skip
           else if ty = "result".toList then StepRes.skip
           else if ty ≠ "assistant".toList then StepRes.skip
           else
             match fallbackTextOf fs with
             | none => StepRes.crash
             | some none => StepRes.skip
             | some (some t) =>
               if pyStrip t = [] then StepRes.skip
               else StepRes.flush (pyStrip t)) := rfl

/-- C3 counterexample: the event `("type": "tool_call", "text": "hi")` is a
typed event that is neither `thinking` nor `result`, and the fallback search
finds the non-empty trimmed text `"hi"` in it; the claim then demands a
flush, but the reader skips it (only `assistant` events are surfaced). -/
theorem stream_event_classification_counterexample :
    msgTypeOf (JVal.jobj [("type".toList, JVal.jstr "tool_call".toList),
        ("text".toList, JVal.jstr "hi".toList)]) = some "tool_call".toList ∧
    "tool_call".toList ≠ "thinking".toList ∧
    "tool_call".toList ≠ "result".toList ∧
    fallbackTextOf [("type".toList, JVal.jstr "tool_call".toList),
        ("text".toList, JVal.jstr "hi".toList)] = some (some "hi".toList) ∧
    pyStrip "hi".toList ≠ [] ∧
    processLine (JVal.jobj [("type".toList, JVal.jstr "tool_call".toList),
        ("text".toList, JVal.jstr "hi".toList)]) = StepRes.skip ∧
    processLine (JVal.jobj [("type".toList, JVal.jstr "tool_call".toList),
        ("text".toList, JVal.jstr "hi".toList)]) ≠ StepRes.flush "hi".toList :=
  ⟨rfl, by decide, by decide, rfl, by decide, rfl, by decide⟩

/-- C3 (amended): for every well-formed event line, events whose role/type
field (case-insensitive) is `thinking` or `result` are never surfaced; only
events whose field is exactly `assistant` are inspected by the fallback
search, and such an event surfaces a flush exactly when the search finds text
that is non-empty after trimming; every other event is dropped (or aborts the
reader) without surfacing anything. -/
theorem stream_event_classification (v : JVal) :
    (∀ s, processLine v = StepRes.flush s →
        msgTypeOf v = some "assistant".toList ∧
        ∃ fs t, v = JVal.jobj fs ∧ fallbackTextOf fs = some (some t) ∧
          s = pyStrip t ∧ s ≠ []) ∧
    ((msgTypeOf v = some "thinking".toList ∨ msgTypeOf v = some "result".toList) →
        processLine v = StepRes.skip) ∧
    (∀ fs t, v = JVal.jobj fs → msgTypeOf v = some "assistant".toList →
        fallbackTextOf fs = some (some t) → pyStrip t ≠ [] →
        processLine v = StepRes.flush (pyStrip t)) ∧
    (∀ fs, v = JVal.jobj fs → msgTypeOf v ≠ some "assistant".toList →
        ∀ s, processLine v ≠ StepRes.flush s) := by
  cases v with
  | jnull =>
    refine ⟨?_, ?_, ?_, ?_⟩
    · intro s h; simp [processLine] at h
    · intro h; rcases h with h | h <;> simp [msgTypeOf] at h
    · intro fs t hv; exact absurd hv (by simp)
    · intro fs hv; exact absurd hv (by simp)
  | jbool b =>
    refine ⟨?_, ?_, ?_, ?_⟩
    · intro s h; simp [processLine] at h
    · intro h; rcases h with h | h <;> simp [msgTypeOf] at h
    · intro fs t hv; exact absurd hv (by simp)
    · intro fs hv; exact absurd hv (by simp)
  | jnum n =>
    refine ⟨?_, ?_, ?_, ?_⟩
    · intro s h; simp [processLine] at h
    · intro h; rcases h with h | h <;> simp [msgTypeOf] at h
    · intro fs t hv; exact absurd hv (by simp)
    · intro fs hv; exact absurd hv (by simp)
  | jstr s0 =>
    refine ⟨?_, ?_, ?_, ?_⟩
    · intro s h; simp [processLine] at h
    · intro h; rcases h with h | h <;> simp [msgTypeOf] at h
    · intro fs t hv; exact absurd hv (by simp)
    · intro fs hv; exact absurd hv (by simp)
  | jarr es =>
    refine ⟨?_, ?_, ?_, ?_⟩
    · intro s h; simp [processLine] at h
    · intro h; rcases h with h | h <;> simp [msgTypeOf] at h
    · intro fs t hv; exact absurd hv (by simp)
    · intro fs hv; exact absurd hv (by simp)
  | jobj fs =>
    cases hty : msgTypeOf (JVal.jobj fs) with
    | none =>
      have hpl : processLine (JVal.jobj fs) = StepRes.crash := by
        rw [processLine_jobj, hty]
      refine ⟨?_, ?_, ?_, ?_⟩
      · intro s h; rw [hpl] at h; exact absurd h (by simp)
      · intro h; rcases h with h | h <;> simp at h
      · intro fs2 t hv hA; exact absurd hA (by simp)
      · intro fs2 hv hne s h; rw [hpl] at h; exact absurd h (by simp)
    | some ty =>
      have hpl : processLine (JVal.jobj fs)
          = (if ty = "thinking".toList then StepRes.skip
             else if ty = "result".toList then StepRes.skip
             else if ty ≠ "assistant".toList then StepRes.skip
             else
               match fallbackTextOf fs with
               | none => StepRes.crash
               | some none => StepRes.skip
               | some (some t) =>
                 if pyStrip t = [] then StepRes.skip
                 else StepRes.flush (pyStrip t)) := by
        rw [processLine_jobj, hty]
      refine ⟨?_, ?_, ?_, ?_⟩
      · intro s h
        rw [hpl] at h
        by_cases h1 : ty = "thinking".toList
        · rw [if_pos h1] at h; exact absurd h (by simp)
        · rw [if_neg h1] at h
          by_cases h2 : ty = "result".toList
          · rw [if_pos h2] at h; exact absurd h (by simp)
          · rw [if_neg h2] at h
            by_cases h3 : ty = "assistant".toList
            · rw [if_neg (by simp [h3])] at h
              cases hft : fallbackTextOf fs with
              | none => rw [hft] at h; exact absurd h (by simp)
              | some o =>
                cases o with
                | none => rw [hft] at h; exact absurd h (by simp)
                | some t =>
                  rw [hft] at h
                  change (if pyStrip t = [] then StepRes.skip
                    else StepRes.flush (pyStrip t)) = StepRes.flush s at h
                  by_cases hts : pyStrip t = []
                  · rw [if_pos hts] at h; exact absurd h (by simp)
                  · rw [if_neg hts] at h
                    have hs : pyStrip t = s := StepRes.flush.inj h
                    refine ⟨by rw [h3], fs, t, rfl, hft, hs.symm, ?_⟩
                    rw [← hs]; exact hts
            · rw [if_pos (by simpa using h3)] at h; exact absurd h (by simp)
      · intro h
        rcases h with h | h
        · have e := Option.some.inj h
          rw [hpl, if_pos e]
        · have e := Option.some.inj h
          rw [hpl, if_neg (by rw [e]; decide), if_pos e]
      · intro fs2 t hv hA hft hts
        have e := Option.some.inj hA
        obtain rfl : fs2 = fs := (JVal.jobj.inj hv).symm
        rw [hpl, if_neg (by rw [e]; decide), if_neg (by rw [e]; decide),
          if_neg (by simp [e]), hft]
        change (if pyStrip t = [] then StepRes.skip
          else StepRes.flush (pyStrip t)) = _
        rw [if_neg hts]
      · intro fs2 hv hne s h
        have h3 : ty ≠ "assistant".toList := fun e => hne (by rw [e])
        rw [hpl] at h
        by_cases h1 : ty = "thinking".toList
        · rw [if_pos h1] at h; exact absurd h (by simp)
        · rw [if_neg h1] at h
          by_cases h2 : ty = "result".toList
          · rw [if_pos h2] at h; exact absurd h (by simp)
          · rw [if_neg h2, if_pos (by simpa using h3)] at h
            exact absurd h (by simp)

/-- Witness for C3 (amended) at the assistant event
`("role": "Assistant", "text": " hi ")`, flushing the trimmed text. -/
theorem stream_event_classification_witness :
    processLine (JVal.jobj [("role".toList, JVal.jstr "Assistant".toList),
        ("text".toList, JVal.jstr " hi ".toList)])
      = StepRes.flush (pyStrip " hi ".toList) :=
  (stream_event_classification (JVal.jobj
      [("role".toList, JVal.jstr "Assistant".toList),
       ("text".toList, JVal.jstr " hi ".toList)])).2.2.1
    _ " hi ".toList rfl rfl rfl (by decide)

/-! ### Run completion and timeout (claims C4, C5) -/

/-- C4: `run_agent_streaming` completes a run by calling
`_parse_session_and_final_output` with the return code hard-coded to `0` and
then discarding the returned response text, so on a failed run (exit code 1,
stderr `"boom"`, no stdout and nothing surfaced) it sends no message at all —
even though the parser, given the true return code, would synthesize exactly
the error message `"boom"` the spec promises. -/
theorem completion_error_never_sent (jparse : List Char → Option JVal)
    (resume : Option (List Char)) :
    runCompletion jparse [] "boom".toList resume
      = ([], some (resume.map JVal.jstr)) ∧
    parseSFO jparse [] "boom".toList 1
      = some (JVal.jstr "boom".toList, none) :=
  ⟨rfl, rfl⟩

theorem monitorGo_timeout :
    ∀ fuel ts lastTy now : Nat, 0 < ts → now < ts → ts ≤ now + fuel →
      (monitorGo ts lastTy now fuel).1.count MonAction.notice = 1 ∧
      MonAction.killProc ∈ (monitorGo ts lastTy now fuel).1 ∧
      (monitorGo ts lastTy now fuel).2 = true := by
  intro fuel
  induction fuel with
  | zero => intro ts lastTy now h1 h2 h3; omega
  | succ f ih =>
    intro ts lastTy now h1 h2 h3
    by_cases hto : ts ≠ 0 ∧ ts ≤ now + 1
    · have e : monitorGo ts lastTy now (f + 1) = ([.killProc, .notice], true) := by
        simp only [monitorGo]
        rw [if_pos hto]
      rw [e]
      refine ⟨by decide, by simp, rfl⟩
    · have hlt : now + 1 < ts := by
        have : ¬ts ≤ now + 1 := fun hle => hto ⟨by omega, hle⟩
        omega
      by_cases hty2 : typingInterval ≤ now + 1 - lastTy
      · have e : monitorGo ts lastTy now (f + 1)
            = (.typing :: (monitorGo ts (now + 1) (now + 1) f).1,
               (monitorGo ts (now + 1) (now + 1) f).2) := by
          simp only [monitorGo]
          rw [if_neg hto, if_pos hty2]
        obtain ⟨c1, c2, c3⟩ := ih ts (now + 1) (now + 1) h1 hlt (by omega)
        rw [e]
        refine ⟨?_, List.mem_cons_of_mem _ c2, c3⟩
        rw [List.count_cons]
        simp [c1]
      · have e : monitorGo ts lastTy now (f + 1)
            = monitorGo ts lastTy (now + 1) f := by
          simp only [monitorGo]
          rw [if_neg hto, if_neg hty2]
        obtain ⟨c1, c2, c3⟩ := ih ts lastTy (now + 1) h1 hlt (by omega)
        rw [e]
        exact ⟨c1, c2, c3⟩

/-- C5: when the per-run timeout `ts > 0` elapses with the agent subprocess
still running (it never finishes within the observation horizon), the monitor
loop sends exactly one timeout notice and forcibly kills the subprocess and
ends the turn; and when the run emitted no session-bearing event, the session
value returned for the next run is exactly the resume token held before the
run. -/
theorem timeout_turn_behavior (ts fuel : Nat)
    (jparse : List Char → Option JVal) (stdout stderr : List Char)
    (resume : Option (List Char)) (r : JVal)
    (hts : 0 < ts) (hfuel : ts ≤ fuel)
    (hparse : parseSFO jparse stdout stderr 0 = some (r, none)) :
    (monitorRun ts fuel).1.count MonAction.notice = 1 ∧
    MonAction.killProc ∈ (monitorRun ts fuel).1 ∧
    (monitorRun ts fuel).2 = true ∧
    runReturnSession jparse stdout stderr resume = some (resume.map JVal.jstr) := by
  obtain ⟨c1, c2, c3⟩ := monitorGo_timeout fuel ts 0 0 hts hts (by omega)
  refine ⟨c1, c2, c3, ?_⟩
  unfold runReturnSession runCompletion
  rw [hparse]
  rfl

/-- Witness for C5: timeout 1, an agent that never finishes, no
session-bearing output, prior session token `"S9"`. -/
theorem timeout_turn_behavior_witness :
    (monitorRun 1 1).1.count MonAction.notice = 1 ∧
    runReturnSession (fun _ => none) [] [] (some "S9".toList)
      = some (some (JVal.jstr "S9".toList)) := by
  have h := timeout_turn_behavior 1 1 (fun _ => none) [] [] (some "S9".toList)
    (JVal.jstr "(no output)".toList) (by decide) (by decide) rfl
  exact ⟨h.1, h.2.2.2⟩

/-! ### Batcher characterization (claims C1, C2) -/

theorem procUpdate_fields (allowed : Int) (dl : List Char → Bool) (i : Nat)
    (u : Update) (st : BatchState) :
    (procUpdate allowed dl i u st).texts
      = st.texts ++ (if acceptedBy allowed u then textsOfUpdate u else []) ∧
    (procUpdate allowed dl i u st).downloads
      = st.downloads ++ (if acceptedBy allowed u then
          (fidOfUpdate u).map
            (fun f => MainAction.download f (photoLocalName u.update_id i))
          else []) ∧
    (procUpdate allowed dl i u st).images
      = st.images ++ (if acceptedBy allowed u then
          ((fidOfUpdate u).filter dl).map
            (fun _ => photoAgentPath u.update_id i)
          else []) ∧
    (procUpdate allowed dl i u st).chat
      = (match st.chat with
         | some c => some c
         | none =>
           if acceptedBy allowed u then Option.map Msg.chat u.message else none) := by
  cases hm : u.message with
  | none =>
    refine ⟨?_, ?_, ?_, ?_⟩ <;>
      simp [procUpdate, acceptedBy, hm, textsOfUpdate, fidOfUpdate] <;>
      cases st.chat <;> simp
  | some m =>
    by_cases hfrom : m.from_id = some allowed
    · refine ⟨?_, ?_, ?_, ?_⟩ <;>
        · simp only [procUpdate, hm]
          rw [if_neg (by simp [hfrom])]
          simp only [acceptedBy, hm, hfrom, textsOfUpdate, textsOfMsg,
            fidOfUpdate, if_pos (by simp : (decide (some allowed = some allowed)) = true)]
          split_ifs <;> simp_all <;> (try (cases st.chat <;> rfl))
    · refine ⟨?_, ?_, ?_, ?_⟩ <;>
        · simp [procUpdate, acceptedBy, hm, hfrom]
          try (cases st.chat <;> simp)

theorem filterMap_download_map (name : List Char) (l : List (List Char)) :
    ((l.map (fun f => MainAction.download f name)).filterMap fun a =>
      match a with
      | MainAction.download f _ => some f
      | _ => none) = l := by
  induction l with
  | nil => rfl
  | cons x xs ih => simp [ih]

theorem batchGo_texts (allowed : Int) (dl : List Char → Bool) :
    ∀ (us : List Update) (i : Nat) (st : BatchState),
      (batchGo allowed dl i us st).texts
        = st.texts ++ ((allowedUpdates allowed us).map textsOfUpdate).flatten := by
  intro us
  induction us with
  | nil => intro i st; simp [batchGo, allowedUpdates]
  | cons u us ih =>
    intro i st
    show (batchGo allowed dl (i + 1) us (procUpdate allowed dl i u st)).texts = _
    rw [ih, (procUpdate_fields allowed dl i u st).1]
    simp only [allowedUpdates]
    by_cases ha : acceptedBy allowed u
    · rw [if_pos ha, List.filter_cons_of_pos ha]
      simp [List.append_assoc]
    · rw [if_neg ha, List.append_nil, List.filter_cons_of_neg (by simpa using ha)]

theorem batchGo_fids (allowed : Int) (dl : List Char → Bool) :
    ∀ (us : List Update) (i : Nat) (st : BatchState),
      dlFids (batchGo allowed dl i us st)
        = dlFids st ++ ((allowedUpdates allowed us).map fidOfUpdate).flatten := by
  intro us
  induction us with
  | nil => intro i st; simp [batchGo, allowedUpdates]
  | cons u us ih =>
    intro i st
    show dlFids (batchGo allowed dl (i + 1) us (procUpdate allowed dl i u st)) = _
    rw [ih]
    have hdl : dlFids (procUpdate allowed dl i u st)
        = dlFids st ++ (if acceptedBy allowed u then fidOfUpdate u else []) := by
      unfold dlFids
      rw [(procUpdate_fields allowed dl i u st).2.1, List.filterMap_append]
      by_cases ha : acceptedBy allowed u
      · rw [if_pos ha, if_pos ha, filterMap_download_map]
      · rw [if_neg ha, if_neg ha]
        rfl
    rw [hdl]
    simp only [allowedUpdates]
    by_cases ha : acceptedBy allowed u
    · rw [if_pos ha, List.filter_cons_of_pos ha]
      simp [List.append_assoc]
    · rw [if_neg ha, List.append_nil, List.filter_cons_of_neg (by simpa using ha)]

theorem batchGo_images_len (allowed : Int) (dl : List Char → Bool) :
    ∀ (us : List Update) (i : Nat) (st : BatchState),
      (batchGo allowed dl i us st).images.length
        = st.images.length
          + (((allowedUpdates allowed us).map
              (fun u => ((fidOfUpdate u).filter dl).length)).sum) := by
  intro us
  induction us with
  | nil => intro i st; simp [batchGo, allowedUpdates]
  | cons u us ih =>
    intro i st
    show (batchGo allowed dl (i + 1) us (procUpdate allowed dl i u st)).images.length = _
    rw [ih]
    have himg : (procUpdate allowed dl i u st).images.length
        = st.images.length
          + (if acceptedBy allowed u then ((fidOfUpdate u).filter dl).length else 0) := by
      rw [(procUpdate_fields allowed dl i u st).2.2.1, List.length_append]
      by_cases ha : acceptedBy allowed u
      · rw [if_pos ha, if_pos ha, List.length_map]
      · rw [if_neg ha, if_neg ha]
        rfl
    rw [himg]
    simp only [allowedUpdates]
    by_cases ha : acceptedBy allowed u
    · rw [if_pos ha, List.filter_cons_of_pos ha]
      simp
      omega
    · rw [if_neg ha, List.filter_cons_of_neg (by simpa using ha)]
      simp

theorem batchGo_chat (allowed : Int) (dl : List Char → Bool) :
    ∀ (us : List Update) (i : Nat) (st : BatchState),
      (batchGo allowed dl i us st).chat
        = (match st.chat with
           | some c => some c
           | none => chatOf allowed us) := by
  intro us
  induction us with
  | nil =>
    intro i st
    cases hc : st.chat <;> simp [batchGo, chatOf, hc]
  | cons u us ih =>
    intro i st
    show (batchGo allowed dl (i + 1) us (procUpdate allowed dl i u st)).chat = _
    rw [ih, (procUpdate_fields allowed dl i u st).2.2.2]
    cases hc : st.chat with
    | some c => rfl
    | none =>
      cases hm : u.message with
      | none =>
        have ha : acceptedBy allowed u = false := by simp [acceptedBy, hm]
        rw [ha]
        simp [chatOf, List.findSome?_cons, hm]
      | some m =>
        by_cases hfrom : m.from_id = some allowed
        · have ha : acceptedBy allowed u = true := by simp [acceptedBy, hm, hfrom]
          rw [ha]
          simp [chatOf, List.findSome?_cons, hm, hfrom]
        · have ha : acceptedBy allowed u = false := by simp [acceptedBy, hm, hfrom]
          rw [ha]
          simp [chatOf, List.findSome?_cons, hm, hfrom]

theorem batchGo_downloads_shape (allowed : Int) (dl : List Char → Bool) :
    ∀ (us : List Update) (i : Nat) (st : BatchState),
      ∀ a ∈ (batchGo allowed dl i us st).downloads,
        a ∈ st.downloads ∨ ∃ f d, a = MainAction.download f d := by
  intro us
  induction us with
  | nil => intro i st a ha; exact Or.inl ha
  | cons u us ih =>
    intro i st a ha
    rcases ih (i + 1) (procUpdate allowed dl i u st) a ha with h | h
    · rw [(procUpdate_fields allowed dl i u st).2.1] at h
      rcases List.mem_append.mp h with h2 | h2
      · exact Or.inl h2
      · by_cases hacc : acceptedBy allowed u
        · rw [if_pos hacc] at h2
          obtain ⟨f, _, hf⟩ := List.mem_map.mp h2
          exact Or.inr ⟨f, _, hf.symm⟩
        · rw [if_neg hacc] at h2
          simp at h2
    · exact Or.inr h

theorem chatOf_eq_head (allowed : Int) :
    ∀ us : List Update,
      chatOf allowed us
        = (allowedUpdates allowed us).head?.bind
            (fun u => Option.map Msg.chat u.message) := by
  intro us
  induction us with
  | nil => rfl
  | cons u us ih =>
    cases hm : u.message with
    | none =>
      have hfilter : allowedUpdates allowed (u :: us) = allowedUpdates allowed us := by
        simp only [allowedUpdates]
        exact List.filter_cons_of_neg (by simp [acceptedBy, hm])
      rw [hfilter, ← ih]
      simp [chatOf, List.findSome?_cons, hm]
    | some m =>
      by_cases hfrom : m.from_id = some allowed
      · have hfilter : allowedUpdates allowed (u :: us)
            = u :: allowedUpdates allowed us := by
          simp only [allowedUpdates]
          exact List.filter_cons_of_pos (by simp [acceptedBy, hm, hfrom])
        rw [hfilter]
        simp [chatOf, List.findSome?_cons, hm, hfrom]
      · have hfilter : allowedUpdates allowed (u :: us)
            = allowedUpdates allowed us := by
          simp only [allowedUpdates]
          exact List.filter_cons_of_neg (by simp [acceptedBy, hm, hfrom])
        rw [hfilter, ← ih]
        simp [chatOf, List.findSome?_cons, hm, hfrom]

/-- C1: for every non-empty poll response, the in-memory and persisted offset
is set to (last update id) + 1 unconditionally — whether or not any update was
accepted — and the offset save appears in the iteration's action trace right
after the batch-building downloads and before any agent invocation; under
monotonically increasing update ids across successive responses, the offset
never decreases. -/
theorem offset_persisted_before_agent (allowed : Int) (dl : List Char → Bool)
    (updates : List Update) (prev : Int) (hne : updates ≠ []) :
    (∃ pre post,
      iterationActions allowed dl updates
        = pre ++ MainAction.saveOffset (lastIdOf updates + 1) :: post ∧
      ∀ a ∈ pre, ∃ f d, a = MainAction.download f d) ∧
    offsetAfter prev updates = lastIdOf updates + 1 ∧
    (∀ updates2 : List Update, updates2 ≠ [] →
      lastIdOf updates ≤ lastIdOf updates2 →
      offsetAfter prev updates ≤ offsetAfter (offsetAfter prev updates) updates2) := by
  have hemp : updates.isEmpty = false := by
    cases updates with
    | nil => exact absurd rfl hne
    | cons a l => rfl
  refine ⟨?_, ?_, ?_⟩
  · have hiter : iterationActions allowed dl updates
        = (buildBatch allowed dl updates).downloads
          ++ MainAction.saveOffset (lastIdOf updates + 1)
          :: (if (buildBatch allowed dl updates).texts = []
                ∧ (buildBatch allowed dl updates).images = [] then []
              else
                match (buildBatch allowed dl updates).chat with
                | none => []
                | some c =>
                  MainAction.saveChatId c ::
                    (if pyStrip (promptOf (buildBatch allowed dl updates)) = []
                     then []
                     else [MainAction.typing,
                           MainAction.runAgent
                             (promptOf (buildBatch allowed dl updates)),
                           MainAction.saveSession])) := by
      simp only [iterationActions, hemp, Bool.false_eq_true, if_false]
    refine ⟨(buildBatch allowed dl updates).downloads, _, hiter, ?_⟩
    intro a ha
    rcases batchGo_downloads_shape allowed dl updates 0 initialBatch a ha with h | h
    · simp [initialBatch] at h
    · exact h
  · simp [offsetAfter, hemp]
  · intro updates2 hne2 hle
    have hemp2 : updates2.isEmpty = false := by
      cases updates2 with
      | nil => exact absurd rfl hne2
      | cons a l => rfl
    simp [offsetAfter, hemp, hemp2]
    omega

/-- Witness for C1 on a one-update response with id 100. -/
theorem offset_persisted_before_agent_witness :
    offsetAfter 0 [⟨100, some ⟨some 7, 5, some "a".toList, none, []⟩⟩] = 101 :=
  ((offset_persisted_before_agent 7 (fun _ => true)
      [⟨100, some ⟨some 7, 5, some "a".toList, none, []⟩⟩] 0 (by decide)).2.1).trans
    (by decide)

/-- C2 counterexample: two responses that agree exactly on the allowed user's
updates (one photo update, id 100) and differ only in one update from another
sender nevertheless produce different downloaded-image path sets and
different prompts, because the local image name embeds the update's position
in the full response (`photo_100_0.jpg` vs `photo_100_1.jpg`). -/
theorem batch_interference_counterexample :
    allowedUpdates 7
        [⟨100, some ⟨some 7, 5, none, none, [some "f1".toList]⟩⟩]
      = allowedUpdates 7
        [⟨99, some ⟨some 8, 6, some "x".toList, none, []⟩⟩,
         ⟨100, some ⟨some 7, 5, none, none, [some "f1".toList]⟩⟩] ∧
    (buildBatch 7 (fun _ => true)
        [⟨100, some ⟨some 7, 5, none, none, [some "f1".toList]⟩⟩]).images
      ≠ (buildBatch 7 (fun _ => true)
        [⟨99, some ⟨some 8, 6, some "x".toList, none, []⟩⟩,
         ⟨100, some ⟨some 7, 5, none, none, [some "f1".toList]⟩⟩]).images ∧
    promptOf (buildBatch 7 (fun _ => true)
        [⟨100, some ⟨some 7, 5, none, none, [some "f1".toList]⟩⟩])
      ≠ promptOf (buildBatch 7 (fun _ => true)
        [⟨99, some ⟨some 8, 6, some "x".toList, none, []⟩⟩,
         ⟨100, some ⟨some 7, 5, none, none, [some "f1".toList]⟩⟩]) :=
  ⟨rfl, by decide, by decide⟩

/-- C2 (amended): for two poll responses agreeing on the allowed user's
updates and differing only in other senders' updates, the batcher produces
the same batch texts, the same chat id, the same downloaded file-id sequence,
the same number of downloaded images and the same decision to skip; the
prompt is also identical whenever no image was downloaded; and the batch
texts are a function of the allowed-sender updates alone, so no text,
caption, or photo from a non-allowed sender ever contributes. -/
theorem batch_allowed_equivalence (allowed : Int) (dl : List Char → Bool)
    (u1 u2 : List Update)
    (h : allowedUpdates allowed u1 = allowedUpdates allowed u2) :
    (buildBatch allowed dl u1).texts = (buildBatch allowed dl u2).texts ∧
    (buildBatch allowed dl u1).chat = (buildBatch allowed dl u2).chat ∧
    dlFids (buildBatch allowed dl u1) = dlFids (buildBatch allowed dl u2) ∧
    (buildBatch allowed dl u1).images.length
      = (buildBatch allowed dl u2).images.length ∧
    (((buildBatch allowed dl u1).texts = [] ∧ (buildBatch allowed dl u1).images = [])
      ↔ ((buildBatch allowed dl u2).texts = []
          ∧ (buildBatch allowed dl u2).images = [])) ∧
    ((buildBatch allowed dl u1).images = [] →
      promptOf (buildBatch allowed dl u1) = promptOf (buildBatch allowed dl u2)) ∧
    (buildBatch allowed dl u1).texts
      = ((allowedUpdates allowed u1).map textsOfUpdate).flatten := by
  have htexts1 : (buildBatch allowed dl u1).texts
      = ((allowedUpdates allowed u1).map textsOfUpdate).flatten := by
    have := batchGo_texts allowed dl u1 0 initialBatch
    simpa [buildBatch, initialBatch] using this
  have htexts2 : (buildBatch allowed dl u2).texts
      = ((allowedUpdates allowed u2).map textsOfUpdate).flatten := by
    have := batchGo_texts allowed dl u2 0 initialBatch
    simpa [buildBatch, initialBatch] using this
  have hch1 : (buildBatch allowed dl u1).chat = chatOf allowed u1 := by
    have := batchGo_chat allowed dl u1 0 initialBatch
    simpa [buildBatch, initialBatch] using this
  have hch2 : (buildBatch allowed dl u2).chat = chatOf allowed u2 := by
    have := batchGo_chat allowed dl u2 0 initialBatch
    simpa [buildBatch, initialBatch] using this
  have hfid1 : dlFids (buildBatch allowed dl u1)
      = ((allowedUpdates allowed u1).map fidOfUpdate).flatten := by
    have := batchGo_fids allowed dl u1 0 initialBatch
    simpa [buildBatch, initialBatch, dlFids] using this
  have hfid2 : dlFids (buildBatch allowed dl u2)
      = ((allowedUpdates allowed u2).map fidOfUpdate).flatten := by
    have := batchGo_fids allowed dl u2 0 initialBatch
    simpa [buildBatch, initialBatch, dlFids] using this
  have hlen1 : (buildBatch allowed dl u1).images.length
      = ((allowedUpdates allowed u1).map
          (fun u => ((fidOfUpdate u).filter dl).length)).sum := by
    have := batchGo_images_len allowed dl u1 0 initialBatch
    simpa [buildBatch, initialBatch] using this
  have hlen2 : (buildBatch allowed dl u2).images.length
      = ((allowedUpdates allowed u2).map
          (fun u => ((fidOfUpdate u).filter dl).length)).sum := by
    have := batchGo_images_len allowed dl u2 0 initialBatch
    simpa [buildBatch, initialBatch] using this
  have hts : (buildBatch allowed dl u1).texts = (buildBatch allowed dl u2).texts := by
    rw [htexts1, htexts2, h]
  have hlen : (buildBatch allowed dl u1).images.length
      = (buildBatch allowed dl u2).images.length := by
    rw [hlen1, hlen2, h]
  have himg_iff : (buildBatch allowed dl u1).images = []
      ↔ (buildBatch allowed dl u2).images = [] := by
    rw [← List.length_eq_zero, ← List.length_eq_zero, hlen]
  refine ⟨hts, ?_, ?_, hlen, ?_, ?_, htexts1⟩
  · rw [hch1, hch2, chatOf_eq_head, chatOf_eq_head, h]
  · rw [hfid1, hfid2, h]
  · constructor
    · intro ⟨a, b⟩; exact ⟨hts ▸ a, himg_iff.mp b⟩
    · intro ⟨a, b⟩; exact ⟨hts.symm ▸ a, himg_iff.mpr b⟩
  · intro himg1
    have himg2 := himg_iff.mp himg1
    simp [promptOf, himg1, himg2, hts]

/-- Witness for C2 (amended): a text-only allowed update, with and without a
preceding update from another sender, yields the same batch texts. -/
theorem batch_allowed_equivalence_witness :
    (buildBatch 7 (fun _ => true)
        [⟨2, some ⟨some 7, 5, some "a".toList, none, []⟩⟩]).texts
      = (buildBatch 7 (fun _ => true)
          [⟨1, some ⟨some 8, 6, some "x".toList, none, []⟩⟩,
           ⟨2, some ⟨some 7, 5, some "a".toList, none, []⟩⟩]).texts :=
  (batch_allowed_equivalence 7 (fun _ => true) _ _ (by decide)).1
